import Mathlib

/-!
# Verification of the NIRS streamlit analysis pipeline

This file gives a shallow embedding, in Lean 4, of the core data pipeline of
`src/streamlit_app.py` and proves (or refutes) the specification claims about
it.  Machine floats are modelled by `ℚ` where arithmetic is exact; Python
strings are Lean `String`s; `None`/`NaN` cells are `Option` values; a fallible
stage returns `Option`/`Except`.

Embedded pieces of the source, with line references to `src/streamlit_app.py`:

* `butterworth_filter`   — lines 9-13 (exception behaviour of the scipy calls);
* `detect_columns`       — lines 44-58;
* `time_columns`, `time_column_name` — lines 81-91;
* `normalizeStringTimeColumn` — lines 97-104 (string time column branch);
* `windowMaskRows` and the export pipeline — lines 110-118 and 194-196;
* `pandasInterpolate`    — the `Series.interpolate()` call on line 127;
* `time_to_seconds`      — lines 136-142;
* `segmentation_runs`    — the `if work_seconds and rest_seconds` gate, line 147;
* `steps`                — the while-loop on lines 148-161.
-/

set_option autoImplicit false

namespace NirsApp

/-! ## Generic string helpers (Python `in`, `.lower()`, `int()`) -/

/-- Does `l` start with `p`?  (List-of-characters version of Python string
`startswith`, used to build the substring test.) -/
def listStartsWith : List Char → List Char → Bool
  | [], _ => true
  | _ :: _, [] => false
  | a :: as, b :: bs => a == b && listStartsWith as bs

/-- Python's substring containment `needle in hay` on exploded strings. -/
def containsSub (needle : List Char) : List Char → Bool
  | [] => needle.isEmpty
  | hay@(_ :: rest) => listStartsWith needle hay || containsSub needle rest

/-- Python `s.lower()` restricted to the ASCII/char-wise case used by the
column names in this program. -/
def pyLower (s : String) : String := ⟨s.toList.map Char.toLower⟩

/-- Python substring test `needle in hay` on strings. -/
def strContains (needle hay : String) : Bool := containsSub needle.toList hay.toList

/-- Numeric value of a digit run (the string is already known to be digits). -/
def digitsVal (cs : List Char) : ℕ := cs.foldl (fun a c => a * 10 + (c.toNat - 48)) 0

/-- Python `str.split(sep)` with a single-character separator, on exploded
strings: `"".split(":") == [""]`, and separators at the ends produce empty
pieces. -/
def splitOnChar (sep : Char) : List Char → List (List Char)
  | [] => [[]]
  | c :: rest =>
    if c == sep then [] :: splitOnChar sep rest
    else
      match splitOnChar sep rest with
      | [] => [[c]]
      | h :: t => (c :: h) :: t

/-- Surrounding-whitespace strip (Python `int` ignores leading and trailing
whitespace of its argument). -/
def pyTrim (cs : List Char) : List Char :=
  ((cs.dropWhile Char.isWhitespace).reverse.dropWhile Char.isWhitespace).reverse

/-- Python `int(s)` on an exploded string: strips surrounding whitespace,
allows one optional sign, then requires a nonempty run of decimal digits; any
other shape raises `ValueError`, modelled as `none`.  (Python additionally
allows underscore digit grouping, which no input in this development uses.) -/
def pyIntChars (cs0 : List Char) : Option ℤ :=
  match pyTrim cs0 with
  | [] => none
  | '+' :: rest => if !rest.isEmpty && rest.all Char.isDigit then some (digitsVal rest) else none
  | '-' :: rest => if !rest.isEmpty && rest.all Char.isDigit then some (-(digitsVal rest : ℤ)) else none
  | cs => if cs.all Char.isDigit then some (digitsVal cs) else none

/-- Python `int(s)` on a string. -/
def pyInt (s : String) : Option ℤ := pyIntChars s.toList

/-! ## Column Classifier (`detect_columns`, lines 44-58) -/

/-- Semantic roles detected by `detect_columns` (the keys of `known_columns`). -/
inductive Role | SmO2 | THb | Power | HR
deriving DecidableEq, Repr

/-- Candidate substrings for each role, in declared order (lines 45-50). -/
def known_columns : Role → List String
  | .SmO2 => ["saturated_hemoglobin_percent", "SmO2"]
  | .THb => ["total_hemoglobin_con", "THb"]
  | .Power => ["power"]
  | .HR => ["heart_rate", "hr"]

/-- Line 54: `name.lower() in col.lower()` — case-insensitive substring test. -/
def nameMatches (name col : String) : Bool := strContains (pyLower name) (pyLower col)

/-- Line 54: `[col for col in df.columns if name.lower() in col.lower()]`. -/
def matched_columns (cols : List String) (name : String) : List String :=
  cols.filter (fun col => nameMatches name col)

/-- Lines 53-57: scan the candidate names in order; the first candidate with a
nonempty match list maps the role to the first matched column and breaks. -/
def detectLoop (cols : List String) : List String → Option String
  | [] => none
  | name :: rest =>
    match matched_columns cols name with
    | [] => detectLoop cols rest
    | c :: _ => some c

/-- Lines 44-58: `detect_columns`, per role (`column_map[key]` is `some` iff the
key is present in the resulting dict). -/
def detect_columns (cols : List String) (role : Role) : Option String :=
  detectLoop cols (known_columns role)

/-- The Column Classifier exactly as the spec words it: find the first
candidate for which any column matches case-insensitively, then take the first
matching column in table order; no candidate matching means unmapped. -/
def detectColumnsSpec (cols : List String) (role : Role) : Option String :=
  ((known_columns role).find? (fun name => cols.any (fun col => nameMatches name col))).bind
    (fun name => cols.find? (fun col => nameMatches name col))

/-! ## Time column location (lines 81-91) -/

/-- Line 81: `"time" in col.lower() or "timestamp" in col.lower()`. -/
def hasTimeName (col : String) : Bool :=
  strContains "time" (pyLower col) || strContains "timestamp" (pyLower col)

/-- Line 81: the list of candidate time columns, in table order. -/
def time_columns (cols : List String) : List String := cols.filter hasTimeName

/-- Line 88: `col.lower() == "timestamp"`. -/
def isExactTimestamp (col : String) : Bool := pyLower col == "timestamp"

/-- Lines 83-91: if no candidate exists the app stops with an error (`none`);
otherwise a column whose lowercased name is exactly `"timestamp"` is
prioritized, else the first candidate is used. -/
def time_column_name (cols : List String) : Option String :=
  match time_columns cols with
  | [] => none
  | c :: rest =>
    if (c :: rest).any isExactTimestamp then (c :: rest).find? isExactTimestamp
    else some c

/-- The Time Axis Normalizer's column location as the spec words it: the first
column whose name contains "time" or "timestamp" (case-insensitive), `none`
when there is no such column. -/
def firstTimeColumnSpec (cols : List String) : Option String := cols.find? hasTimeName

/-! ## Time-of-day normalization (lines 97-104)

For a string-typed time column the app runs `pd.to_datetime` and then
`(time_column - time_column.min()).dt.total_seconds()`.  A value that parses
as a time-of-day only (hours, minutes, seconds, no date) is given the current
date by the parser, so it denotes `today + h*3600 + m*60 + s` seconds on the
absolute datetime axis; `today` (the epoch value of today's midnight) is an
explicit parameter below. -/

/-- Seconds since midnight of a parsed time-of-day `(h, m, s)`. -/
def todSeconds : ℕ × ℕ × ℕ → ℤ
  | (h, m, s) => (h : ℤ) * 3600 + m * 60 + s

/-- Minimum of a column (`Series.min()`), `none` on an empty column. -/
def listMin : List ℤ → Option ℤ
  | [] => none
  | a :: t => some (t.foldl min a)

/-- Lines 99-100 on a column of pure time-of-day values: convert each value to
an absolute datetime (today's date supplied by the parser), subtract the column
minimum, and take total seconds. -/
def normalizeStringTimeColumn (today : ℤ) (vals : List (ℕ × ℕ × ℕ)) : List ℤ :=
  let dts := vals.map (fun t => today + todSeconds t)
  match listMin dts with
  | none => []
  | some m => dts.map (fun x => x - m)

/-- The conversion as the claim words it: seconds since midnight, with no
zero-basing. -/
def secondsSinceMidnightSpec (vals : List (ℕ × ℕ × ℕ)) : List ℤ := vals.map todSeconds

/-- Zero-basing a list of seconds at its minimum (what the code actually
computes, date-independently). -/
def zeroBased (l : List ℤ) : List ℤ :=
  match listMin l with
  | none => []
  | some m => l.map (fun x => x - m)

/-! ## Duration parsing and the segmentation gate (lines 136-147) -/

/-- Lines 136-142: `time_to_seconds` splits on `":"`, converts both pieces with
`int`, and returns `minutes * 60 + seconds`; any `ValueError` (wrong number of
pieces or a piece `int` rejects) is caught and reported, yielding `None`. -/
def time_to_seconds (s : String) : Option ℤ :=
  match splitOnChar ':' s.toList with
  | [mcs, scs] =>
    match pyIntChars mcs, pyIntChars scs with
    | some m, some sec => some (m * 60 + sec)
    | _, _ => none
  | _ => none

/-- Python truthiness of an `int`-or-`None` value (`None` and `0` are falsy,
every other integer — including negative ones — is truthy). -/
def pyTruthyInt : Option ℤ → Bool
  | none => false
  | some n => !(n == 0)

/-- Line 147: the `if work_seconds and rest_seconds:` gate — segmentation runs
iff both parsed durations are truthy. -/
def segmentation_runs (workStr restStr : String) : Bool :=
  pyTruthyInt (time_to_seconds workStr) && pyTruthyInt (time_to_seconds restStr)

/-- Lines 140-141: an error message is emitted exactly when a duration string
fails to parse (`st.error` inside `time_to_seconds`). -/
def duration_error_reported (workStr restStr : String) : Bool :=
  (time_to_seconds workStr).isNone || (time_to_seconds restStr).isNone

/-! ## Signal filter error behaviour (`butterworth_filter`, lines 9-13)

The numeric output of `butter`/`filtfilt` is floating-point and is not modelled
here; what is modelled is the exception structure of the two library calls,
from scipy's documented contracts: `butter(order, Wn)` raises `ValueError`
unless `0 < Wn < 1`, and `filtfilt(b, a, x)` with its default padding raises
`ValueError` unless `len(x) > 3 * max(len(a), len(b))`, where `butter` of order
`n` returns coefficient arrays of length `n + 1`. -/

/-- Exceptions that can surface from the filter stage.  `valueError origin` is
a `ValueError` raised inside the named library function; `filterError` is the
repository-level `FilterError` the specification postulates (no code in
`src/streamlit_app.py` raises or defines it). -/
inductive PyExn
  | valueError (origin : String)
  | filterError
deriving DecidableEq, Repr

/-- Contract of `scipy.signal.butter`: the normalized critical frequency must
lie strictly between 0 and 1. -/
def scipyButterCheck (wn : ℚ) : Except PyExn Unit :=
  if 0 < wn ∧ wn < 1 then .ok () else .error (.valueError "scipy.signal.butter")

/-- Contract of `scipy.signal.filtfilt` with default padding: the data must be
longer than `3 * max(len(a), len(b)) = 3 * (order + 1)` samples. -/
def scipyFiltfiltCheck (order dataLen : ℕ) : Except PyExn Unit :=
  if 3 * (order + 1) < dataLen then .ok () else .error (.valueError "scipy.signal.filtfilt")

/-- Lines 9-13: `butterworth_filter(data, cutoff, fs, order)` computes
`nyquist = 0.5 * fs` and `normal_cutoff = cutoff / nyquist`, then calls
`butter` and `filtfilt` with no validation and no exception handling of its
own; only the data length is relevant to the exception behaviour, so the data
is abstracted to its length. -/
def butterworth_filter (dataLen : ℕ) (cutoff fs : ℚ) (order : ℕ) : Except PyExn Unit := do
  let nyquist := 1/2 * fs
  let normal_cutoff := cutoff / nyquist
  scipyButterCheck normal_cutoff
  scipyFiltfiltCheck order dataLen

/-! ## Gap filling (`Series.interpolate()`, line 127)

`df_filtered[col_name].interpolate()` uses pandas defaults: `method='linear'`
on an equally spaced index with `limit_direction='forward'` — interior runs of
missing values are filled linearly between the surrounding known values,
missing values after the last known value are set to that last value, and
missing values before the first known value are left missing. -/

/-- Splits a column at its first known value: number of leading missing cells,
then (if any cell is known) the first known value and the remaining cells. -/
def gapSplit : List (Option ℚ) → ℕ × Option (ℚ × List (Option ℚ))
  | [] => (0, none)
  | some a :: rest => (0, some (a, rest))
  | none :: rest =>
    let p := gapSplit rest
    (p.1 + 1, p.2)

theorem gapSplit_length : ∀ (l : List (Option ℚ)) (b : ℚ) (rest : List (Option ℚ)),
    (gapSplit l).2 = some (b, rest) → (gapSplit l).1 + 1 + rest.length = l.length := by
  intro l
  induction l with
  | nil => intro b rest h; simp [gapSplit] at h
  | cons x xs ih =>
    intro b rest h
    match x with
    | some a =>
      simp [gapSplit] at h ⊢
      rw [h.2]
      omega
    | none =>
      simp [gapSplit] at h ⊢
      have := ih b rest h
      omega

/-- Linear fill of a gap of `g` missing cells between known values `a` and `b`
that sit `g + 1` index steps apart. -/
def gapFill (a b : ℚ) (g : ℕ) : List ℚ :=
  (List.range g).map (fun (i : ℕ) => a + (b - a) * ((i : ℚ) + 1) / ((g : ℚ) + 1))

/-- Fills every cell after a known value `a`: a gap followed by another known
value `b` is filled linearly, a trailing gap is filled with `a` itself. -/
def interpFrom (a : ℚ) (l : List (Option ℚ)) : List ℚ :=
  match h : gapSplit l with
  | (g, none) => List.replicate g a
  | (g, some (b, rest)) => gapFill a b g ++ b :: interpFrom b rest
termination_by l.length
decreasing_by
  have := gapSplit_length l b rest (by rw [h])
  omega

/-- Pandas `Series.interpolate()` with default parameters: cells before the
first known value stay missing, everything from the first known value on is
filled by `interpFrom`. -/
def pandasInterpolate (l : List (Option ℚ)) : List (Option ℚ) :=
  match gapSplit l with
  | (_, none) => l
  | (g, some (a, rest)) => List.replicate g none ++ some a :: (interpFrom a rest).map some

/-! ## Interval segmenter (the `steps` while-loop, lines 148-161) -/

/-- Segment label: `work` is the source's `"Trabalho"`, `rest` its
`"Descanso"`. -/
inductive StepType | work | rest
deriving DecidableEq, Repr

/-- The label the loop alternates to after `t`. -/
def StepType.alt : StepType → StepType
  | .work => .rest
  | .rest => .work

/-- One row of the steps table (line 153/159 dict): `{"Step": step, "Type":
type, "Start": start, "End": stop}` (`stop` stands for the source's `"End"`,
a Lean keyword). -/
structure Segment where
  step : ℕ
  type : StepType
  start : ℤ
  stop : ℤ
deriving DecidableEq, Repr

/-- Lines 151-161, one `while current_time < max_time` pass: append a work
segment ending at `min(current_time + work, max_time)`; if its end is still
short of `max_time`, also append a rest segment ending at `min(work_end +
rest, max_time)`; continue from the last end.  The loop body is embedded for
positive durations only (the outer gate, see `segmentation_runs`, is the
caller's responsibility; for a non-positive duration the Python loop can fail
to terminate and is not modelled). -/
def stepsLoop (work rest maxT : ℤ) (ct : ℤ) (k : ℕ) : List Segment :=
  if hp : 0 < work ∧ 0 < rest then
    if h : ct < maxT then
      let workEnd := min (ct + work) maxT
      let restEnd := min (workEnd + rest) maxT
      if h2 : workEnd < maxT then
        ⟨k, .work, ct, workEnd⟩ :: ⟨k + 1, .rest, workEnd, restEnd⟩ ::
          stepsLoop work rest maxT restEnd (k + 2)
      else
        ⟨k, .work, ct, workEnd⟩ :: stepsLoop work rest maxT workEnd (k + 1)
    else []
  else []
termination_by (maxT - ct).toNat
decreasing_by
  all_goals
    obtain ⟨hw, hr⟩ := hp
    omega

/-- Lines 148-150: the loop starts at `current_time = min_time` with
`step_counter = 1`. -/
def steps (work rest minT maxT : ℤ) : List Segment :=
  stepsLoop work rest maxT minT 1

/-! ## Time window and CSV export (lines 110-118 and 194-196) -/

/-- Line 118: the boolean mask `(time_column >= min_time) & (time_column <=
max_time)` — inclusive on both ends. -/
def inWindow (lo hi t : ℚ) : Bool := decide (lo ≤ t) && decide (t ≤ hi)

/-- Line 118: `df_filtered = df[(time_column >= min_time) & (time_column <=
max_time)]` — the rows of the table (paired positionally with the time axis)
whose time value lies inside the window, in original order. -/
def df_filtered_rows {α : Type} (rows : List α) (times : List ℚ) (lo hi : ℚ) : List α :=
  ((rows.zip times).filter (fun p => inWindow lo hi p.2)).map Prod.fst

/-- Line 127: a filtered channel is the channel filter applied to the
interpolated column.  The numeric filter itself is floating-point and is kept
abstract as the parameter `g`; every property proved below holds for every
`g`. -/
def filteredChannel (g : List (Option ℚ) → List ℚ) (col : List (Option ℚ)) : List ℚ :=
  g (pandasInterpolate col)

/-- Lines 118, 124-128 and 194-196: the exported artifact consists of the
windowed rows together with, per selected channel, a `<column>_filtered`
column computed from the windowed column values (`extract` reads the channel's
cell out of a row). -/
def exportCSV {α : Type} (g : List (Option ℚ) → List ℚ) (extract : α → Option ℚ)
    (rows : List α) (times : List ℚ) (lo hi : ℚ) : List α × List ℚ :=
  let wrows := df_filtered_rows rows times lo hi
  (wrows, filteredChannel g (wrows.map extract))

/-- The exported row set as the claim words it, index-wise: exactly the rows
whose time-axis value lies within the window, in table order. -/
def windowedRowsSpec {α : Type} (rows : List α) (times : List ℚ) (lo hi : ℚ) : List α :=
  (List.range (min rows.length times.length)).filterMap (fun i =>
    match rows[i]?, times[i]? with
    | some r, some t => if inWindow lo hi t then some r else none
    | _, _ => none)

/-! ## Declarative interpolation (spec wording for C6) -/

/-- Position (0-based distance) and value of the first known cell of a
column. -/
def firstKnown : List (Option ℚ) → Option (ℕ × ℚ)
  | [] => none
  | some v :: _ => some (0, v)
  | none :: rest => (firstKnown rest).map (fun p => (p.1 + 1, p.2))

/-- Value of a missing cell given its previous known value `a` at distance
`d1 + 1` and (optionally) its next known value at distance `d2 + 1`: linear
interpolation between the neighbours, or `a` held constant when there is no
later known value. -/
def interpValue (a : ℚ) (d1 : ℕ) (next : Option (ℕ × ℚ)) : Option ℚ :=
  match next with
  | some (d2, b) => some (a + (b - a) * ((d1 : ℚ) + 1) / ((d1 : ℚ) + (d2 : ℚ) + 2))
  | none => some a

/-- Cell `i` of the interpolation exactly as the claim words it: known cells
stay, a missing cell is linearly interpolated between its nearest known
neighbours, and across leading and trailing gaps the nearest edge value is
held constant. -/
def specInterpolateAt (l : List (Option ℚ)) (i : ℕ) : Option ℚ :=
  match l[i]? with
  | none => none
  | some (some v) => some v
  | some none =>
    match firstKnown ((l.take i).reverse), firstKnown (l.drop (i + 1)) with
    | some (d1, a), nxt => interpValue a d1 nxt
    | none, some (_, b) => some b
    | none, none => none

/-- The gap filling the claim describes, cell by cell. -/
def specInterpolate (l : List (Option ℚ)) : List (Option ℚ) :=
  (List.range l.length).map (specInterpolateAt l)

/-- Cell `i` of the interpolation pandas actually performs: as
`specInterpolateAt`, except that a missing cell with no earlier known value is
left missing. -/
def specInterpolateFwdAt (l : List (Option ℚ)) (i : ℕ) : Option ℚ :=
  match l[i]? with
  | none => none
  | some (some v) => some v
  | some none =>
    match firstKnown ((l.take i).reverse) with
    | some (d1, a) => interpValue a d1 (firstKnown (l.drop (i + 1)))
    | none => none

/-- Forward-only declarative interpolation (the amended claim). -/
def specInterpolateFwd (l : List (Option ℚ)) : List (Option ℚ) :=
  (List.range l.length).map (specInterpolateFwdAt l)

/-- Helper for relating `interpFrom` to the declarative version: cell `i` of
the suffix `rest` of a column whose previous known value is `a`, sitting one
index step before `rest`. -/
def specAfterAt (a : ℚ) (rest : List (Option ℚ)) (i : ℕ) : Option ℚ :=
  match rest[i]? with
  | none => none
  | some (some v) => some v
  | some none =>
    match firstKnown ((rest.take i).reverse) with
    | some (d1, x) => interpValue x d1 (firstKnown (rest.drop (i + 1)))
    | none => interpValue a i (firstKnown (rest.drop (i + 1)))

/-! ## Shared list lemmas -/

theorem head?_filter {α : Type} (p : α → Bool) (l : List α) :
    (l.filter p).head? = l.find? p := by
  induction l with
  | nil => rfl
  | cons a t ih => by_cases h : p a <;> simp [List.filter_cons, List.find?_cons, h, ih]

/-! ## C4 — Column Classifier -/

theorem detectLoop_eq (cols : List String) (cands : List String) :
    detectLoop cols cands =
      ((cands.find? (fun name => cols.any (fun col => nameMatches name col))).bind
        (fun name => cols.find? (fun col => nameMatches name col))) := by
  induction cands with
  | nil => rfl
  | cons name rest ih =>
    simp only [detectLoop]
    cases h : matched_columns cols name with
    | nil =>
      have hany : cols.any (fun col => nameMatches name col) = false := by
        rw [List.any_eq_false]
        intro col hcol
        exact List.filter_eq_nil_iff.mp h col hcol
      simp [List.find?_cons, hany, ih]
    | cons c cs =>
      have hfind : cols.find? (fun col => nameMatches name col) = some c := by
        rw [← head?_filter]
        show (matched_columns cols name).head? = some c
        rw [h]
        rfl
      have hc : c ∈ cols ∧ nameMatches name c = true := by
        have : c ∈ matched_columns cols name := by rw [h]; exact List.mem_cons_self c cs
        exact List.mem_filter.mp this
      have hany : cols.any (fun col => nameMatches name col) = true :=
        List.any_eq_true.mpr ⟨c, hc.1, hc.2⟩
      simp [List.find?_cons, hany, hfind]

/-- C4: for every ordered set of column names, the Column Classifier maps each
role by scanning that role's candidate substrings in declared order, taking
for the first candidate with any case-insensitive substring match the first
matching column in table order, stopping at that candidate, and leaving a role
with no matching candidate unmapped. -/
theorem C4_column_classifier_scan_order (cols : List String) (role : Role) :
    detect_columns cols role = detectColumnsSpec cols role :=
  detectLoop_eq cols (known_columns role)

/-! ## C2 — time column location -/

theorem isExactTimestamp_hasTimeName (c : String) :
    isExactTimestamp c = true → hasTimeName c = true := by
  intro h
  have hl : pyLower c = "timestamp" := by
    unfold isExactTimestamp at h
    exact beq_iff_eq.mp h
  unfold hasTimeName strContains
  rw [hl]
  decide

theorem time_column_name_none_iff (cols : List String) :
    time_column_name cols = none ↔ time_columns cols = [] := by
  unfold time_column_name
  cases h : time_columns cols with
  | nil => simp
  | cons c rest =>
    simp only [h]
    split_ifs with hany
    · simp only [List.cons_ne_nil, iff_false]
      intro hfind
      obtain ⟨x, hx, hpx⟩ := List.any_eq_true.mp hany
      exact (List.find?_eq_none.mp hfind) x hx hpx
    · simp

/-- C2 counterexample: with columns `["elapsed_time", "timestamp"]` the app
selects `"timestamp"`, not the first column in table order whose name contains
"time" (which is `"elapsed_time"`). -/
theorem C2_counterexample :
    time_column_name ["elapsed_time", "timestamp"] = some "timestamp" ∧
    firstTimeColumnSpec ["elapsed_time", "timestamp"] = some "elapsed_time" ∧
    ¬ time_column_name ["elapsed_time", "timestamp"] =
        firstTimeColumnSpec ["elapsed_time", "timestamp"] := by
  decide

/-- C2 amended: the Time Axis Normalizer fails (terminally) iff no column name
contains "time" or "timestamp" (case-insensitive); when candidates exist it
selects the first column whose lowercased name is exactly `"timestamp"` if
there is one, and otherwise the first candidate in table order. -/
theorem C2_time_column_selection (cols : List String) :
    (time_column_name cols = none ↔ ∀ c ∈ cols, hasTimeName c = false) ∧
    ((time_columns cols).any isExactTimestamp = true →
      time_column_name cols = cols.find? isExactTimestamp) ∧
    ((time_columns cols).any isExactTimestamp = false →
      time_column_name cols = cols.find? hasTimeName) := by
  refine ⟨?_, ?_, ?_⟩
  · rw [time_column_name_none_iff]
    unfold time_columns
    rw [List.filter_eq_nil_iff]
    simp
  · intro hany
    unfold time_column_name
    cases h : time_columns cols with
    | nil => rw [h] at hany; simp at hany
    | cons c rest =>
      rw [h] at hany
      simp only [h, if_pos hany]
      rw [← h]
      unfold time_columns
      rw [List.find?_filter]
      congr 1
      funext a
      by_cases ha : isExactTimestamp a = true
      · simp [ha, isExactTimestamp_hasTimeName a ha]
      · simp [ha]
  · intro hany
    unfold time_column_name
    cases h : time_columns cols with
    | nil =>
      simp only [h]
      have : ∀ c ∈ cols, ¬ hasTimeName c = true := List.filter_eq_nil_iff.mp h
      exact (List.find?_eq_none.mpr this).symm
    | cons c rest =>
      rw [h] at hany
      have hne : ¬ ((c :: rest).any isExactTimestamp = true) := by
        rw [hany]; decide
      simp only [h, if_neg hne]
      rw [← head?_filter]
      have h' : cols.filter hasTimeName = c :: rest := h
      rw [h']
      rfl

/-- C2 amended witness: on `["elapsed_time", "timestamp"]` the exact-timestamp
branch is taken. -/
theorem C2_time_column_selection_witness :
    (time_columns ["elapsed_time", "timestamp"]).any isExactTimestamp = true ∧
    time_column_name ["elapsed_time", "timestamp"] =
      ["elapsed_time", "timestamp"].find? isExactTimestamp :=
  ⟨by decide, (C2_time_column_selection ["elapsed_time", "timestamp"]).2.1 (by decide)⟩

/-! ## C5 — string time column conversion -/

theorem foldl_min_add (c : ℤ) : ∀ (l : List ℤ) (a : ℤ),
    (l.map (fun x => c + x)).foldl min (c + a) = c + l.foldl min a := by
  intro l
  induction l with
  | nil => intro a; rfl
  | cons b t ih =>
    intro a
    simp only [List.map_cons, List.foldl_cons]
    rw [min_add_add_left c a b, ih]

theorem listMin_map_add (c : ℤ) (l : List ℤ) :
    listMin (l.map (fun x => c + x)) = (listMin l).map (fun x => c + x) := by
  cases l with
  | nil => rfl
  | cons a t =>
    simp only [List.map_cons, listMin, Option.map_some']
    exact congrArg some (foldl_min_add c t a)

/-- C5 counterexample: the column `["00:00:10", "00:00:20"]` of time-of-day
values is normalized to `[0, 10]` (zero-based at the column minimum), not to
the claimed seconds-since-midnight `[10, 20]`. -/
theorem C5_counterexample :
    normalizeStringTimeColumn 1760227200 [(0, 0, 10), (0, 0, 20)] = [0, 10] ∧
    secondsSinceMidnightSpec [(0, 0, 10), (0, 0, 20)] = [10, 20] ∧
    ¬ normalizeStringTimeColumn 1760227200 [(0, 0, 10), (0, 0, 20)] =
        secondsSinceMidnightSpec [(0, 0, 10), (0, 0, 20)] := by
  decide

/-- C5 amended: a time column of pure time-of-day values is converted to
seconds since midnight and then zero-based at the column minimum (the result
is elapsed seconds relative to the earliest sample, independent of the date
the parser attaches). -/
theorem C5_string_time_zero_based (today : ℤ) (vals : List (ℕ × ℕ × ℕ)) :
    normalizeStringTimeColumn today vals = zeroBased (secondsSinceMidnightSpec vals) := by
  unfold normalizeStringTimeColumn zeroBased secondsSinceMidnightSpec
  dsimp only
  have hmap : vals.map (fun t => today + todSeconds t)
      = (vals.map todSeconds).map (fun x => today + x) := by
    rw [List.map_map]; rfl
  rw [hmap, listMin_map_add]
  cases h : listMin (vals.map todSeconds) with
  | none => rfl
  | some m =>
    simp only [Option.map_some']
    rw [List.map_map]
    apply List.map_congr_left
    intro x _
    simp only [Function.comp]
    ring

/-! ## C7 — duration parsing and the segmentation gate -/

/-- C7 counterexample: the duration `"-01:00"` parses to `-60` seconds, a
non-positive value; no configuration error is reported and segmentation is
not skipped — it runs with the negative duration. -/
theorem C7_counterexample :
    time_to_seconds "-01:00" = some (-60) ∧
    segmentation_runs "-01:00" "01:00" = true ∧
    duration_error_reported "-01:00" "01:00" = false := by
  decide

/-- C7 amended: an error is reported exactly when a duration string fails to
parse as `mm:ss`, and segmentation runs exactly when both durations parse to a
nonzero (possibly negative) number of seconds; in particular an unparseable
duration is reported and skips segmentation, a zero duration skips
segmentation silently, and a negative duration is run with. -/
theorem C7_duration_gate (w r : String) :
    (duration_error_reported w r = true ↔
      time_to_seconds w = none ∨ time_to_seconds r = none) ∧
    (segmentation_runs w r = true ↔
      (∃ a, time_to_seconds w = some a ∧ a ≠ 0) ∧
      (∃ b, time_to_seconds r = some b ∧ b ≠ 0)) := by
  constructor
  · unfold duration_error_reported
    cases hw : time_to_seconds w <;> cases hr : time_to_seconds r <;> simp
  · unfold segmentation_runs
    cases hw : time_to_seconds w <;> cases hr : time_to_seconds r <;>
      simp [pyTruthyInt]

/-! ## C3 — signal filter error behaviour -/

/-- C3 counterexample: at cutoff `3/5` (≥ the nyquist 0.5 for fs = 1) the
filter call fails with a `ValueError` raised inside `scipy.signal.butter`,
not with a repository-level `FilterError` — `butterworth_filter` performs no
validation of its own. -/
theorem C3_counterexample :
    butterworth_filter 100 (3/5) 1 2 = .error (.valueError "scipy.signal.butter") ∧
    PyExn.valueError "scipy.signal.butter" ≠ PyExn.filterError := by
  constructor
  · norm_num [butterworth_filter, scipyButterCheck, Bind.bind, Except.bind]
  · decide

/-- C3 amended: a cutoff `≤ 0` or `≥ 0.5` (the nyquist for fs = 1) makes the
filter stage fail with an uncaught `ValueError` from `scipy.signal.butter`; a
valid cutoff with at most `3·(order+1) = 9` samples fails with an uncaught
`ValueError` from `scipy.signal.filtfilt`; no failure of the stage is a
`FilterError`, since `butterworth_filter` neither validates its inputs nor
defines such an error. -/
theorem C3_filter_error_behaviour (dataLen : ℕ) (cutoff : ℚ) :
    ((cutoff ≤ 0 ∨ 1/2 ≤ cutoff) →
      butterworth_filter dataLen cutoff 1 2 = .error (.valueError "scipy.signal.butter")) ∧
    (0 < cutoff → cutoff < 1/2 → dataLen ≤ 9 →
      butterworth_filter dataLen cutoff 1 2 = .error (.valueError "scipy.signal.filtfilt")) ∧
    (∀ e, butterworth_filter dataLen cutoff 1 2 = .error e → e ≠ .filterError) := by
  have hnc : cutoff / (1/2 * 1) = 2 * cutoff := by ring
  unfold butterworth_filter scipyButterCheck scipyFiltfiltCheck
  simp only [Bind.bind, Except.bind, hnc]
  refine ⟨?_, ?_, ?_⟩
  · intro hc
    rw [if_neg]
    rintro ⟨h1, h2⟩
    rcases hc with h | h
    · linarith
    · linarith
  · intro h1 h2 h3
    rw [if_pos ⟨by linarith, by linarith⟩, if_neg (by omega)]
  · intro e he
    by_cases hA : 0 < 2 * cutoff ∧ 2 * cutoff < 1
    · rw [if_pos hA] at he
      by_cases hB : 3 * (2 + 1) < dataLen
      · rw [if_pos hB] at he
        exact absurd he (by simp)
      · rw [if_neg hB] at he
        simp only [Except.error.injEq] at he
        rw [← he]
        decide
    · rw [if_neg hA] at he
      simp only [Except.error.injEq] at he
      rw [← he]
      decide

/-- C3 amended witness: cutoff 1 (≥ 0.5) on 100 samples errors inside
`scipy.signal.butter`. -/
theorem C3_filter_error_behaviour_witness :
    ((1 : ℚ) ≤ 0 ∨ (1 : ℚ)/2 ≤ 1) ∧
    butterworth_filter 100 1 1 2 = .error (.valueError "scipy.signal.butter") :=
  ⟨Or.inr (by norm_num), (C3_filter_error_behaviour 100 1).1 (Or.inr (by norm_num))⟩

/-! ## C1, C8, C9 — interval segmenter -/

/-- Adjacency-and-alternation relation between consecutive segments: the next
segment starts where the previous one stops, with the opposite label. -/
def segAdj (a b : Segment) : Prop := b.start = a.stop ∧ b.type = a.type.alt

theorem stepsLoop_stop (work rest maxT ct : ℤ) (k : ℕ) (hge : maxT ≤ ct) :
    stepsLoop work rest maxT ct k = [] := by
  rw [stepsLoop]
  split_ifs with h1 h2 <;> first | omega | rfl

/-- Master invariant of the `steps` while-loop, for positive durations,
starting from any `current_time < max_time` and any counter value: the
produced list is nonempty, starts with a work segment at `current_time`
carrying the counter, ends exactly at `max_time`, is adjacent-alternating,
consists of strictly positive segments inside `[current_time, max_time]`, and
numbers its segments consecutively from the counter. -/
theorem stepsLoop_master (work rest : ℤ) (hw : 0 < work) (hr : 0 < rest) (maxT : ℤ) :
    ∀ (n : ℕ) (ct : ℤ) (k : ℕ), (maxT - ct).toNat ≤ n → ct < maxT →
      (∃ s tl, stepsLoop work rest maxT ct k = s :: tl ∧ s.start = ct ∧
        s.type = StepType.work ∧ s.step = k) ∧
      (∀ a, (stepsLoop work rest maxT ct k).getLast? = some a → a.stop = maxT) ∧
      List.Chain' segAdj (stepsLoop work rest maxT ct k) ∧
      (∀ seg ∈ stepsLoop work rest maxT ct k,
        ct ≤ seg.start ∧ seg.start < seg.stop ∧ seg.stop ≤ maxT) ∧
      ((stepsLoop work rest maxT ct k).map Segment.step
        = List.range' k (stepsLoop work rest maxT ct k).length) := by
  intro n
  induction n with
  | zero => intro ct k hn hlt; omega
  | succ n ih =>
    intro ct k hn hlt
    rw [stepsLoop, dif_pos ⟨hw, hr⟩, dif_pos hlt]
    dsimp only
    by_cases h2 : min (ct + work) maxT < maxT
    · rw [dif_pos h2]
      have hwe1 : ct < min (ct + work) maxT := by omega
      have hre1 : min (ct + work) maxT < min (min (ct + work) maxT + rest) maxT := by omega
      have hre2 : min (min (ct + work) maxT + rest) maxT ≤ maxT := min_le_right _ _
      rcases lt_or_ge (min (min (ct + work) maxT + rest) maxT) maxT with h3 | h3
      · obtain ⟨⟨s, tl, hcons, hs1, hs2, hs3⟩, hlast, hchain, hmem, hsteps⟩ :=
          ih (min (min (ct + work) maxT + rest) maxT) (k + 2) (by omega) h3
        rw [hcons] at hlast hchain hmem hsteps ⊢
        refine ⟨⟨_, _, rfl, rfl, rfl, rfl⟩, ?_, ?_, ?_, ?_⟩
        · intro a ha
          rw [List.getLast?_cons_cons, List.getLast?_cons_cons] at ha
          exact hlast a ha
        · rw [List.chain'_cons, List.chain'_cons]
          exact ⟨⟨rfl, rfl⟩, ⟨hs1.symm ▸ rfl, by rw [hs2]; rfl⟩, hchain⟩
        · intro seg hseg
          simp only [List.mem_cons] at hseg
          rcases hseg with hA | hB | htail
          · subst hA; exact ⟨le_refl ct, hwe1, min_le_right _ _⟩
          · subst hB
            exact ⟨le_of_lt hwe1, hre1, hre2⟩
          · have := hmem seg (List.mem_cons.mpr htail)
            constructor
            · omega
            · exact this.2
        · simp only [List.map_cons, List.length_cons]
          rw [List.range'_succ, List.range'_succ]
          simp only [List.cons.injEq, true_and]
          simp only [List.map_cons, List.length_cons] at hsteps
          exact hsteps
      · have hre : min (min (ct + work) maxT + rest) maxT = maxT := by omega
        rw [stepsLoop_stop work rest maxT _ (k + 2) (by omega)]
        refine ⟨⟨_, _, rfl, rfl, rfl, rfl⟩, ?_, ?_, ?_, ?_⟩
        · intro a ha
          simp only [List.getLast?_cons_cons, List.getLast?_singleton,
            Option.some.injEq] at ha
          rw [← ha]
          exact hre
        · exact List.chain'_cons.mpr ⟨⟨rfl, rfl⟩, List.chain'_singleton _⟩
        · intro seg hseg
          simp only [List.mem_cons, List.mem_singleton] at hseg
          rcases hseg with hA | hB
          · subst hA; exact ⟨le_refl ct, hwe1, min_le_right _ _⟩
          · rcases hB with hB | hB
            · subst hB
              exact ⟨le_of_lt hwe1, hre1, hre2⟩
            · exact absurd hB (List.not_mem_nil seg)
        · simp [List.range']
    · rw [dif_neg h2]
      have hwe : min (ct + work) maxT = maxT := by omega
      rw [hwe, stepsLoop_stop work rest maxT maxT (k + 1) le_rfl]
      refine ⟨⟨_, _, rfl, rfl, rfl, rfl⟩, ?_, ?_, ?_, ?_⟩
      · intro a ha
        simp only [List.getLast?_singleton, Option.some.injEq] at ha
        rw [← ha]
      · exact List.chain'_singleton _
      · intro seg hseg
        simp only [List.mem_singleton] at hseg
        subst hseg
        exact ⟨le_refl ct, hlt, le_refl maxT⟩
      · simp [List.range']

/-- C1: for every start < end, work > 0 and rest > 0, the segmenter produces a
nonempty ordered sequence that starts with a work segment at `start`, in which
each segment begins exactly where the previous one stops with the alternated
label, whose segments are strictly increasing intervals inside
`[start, end]`, and whose last segment stops exactly at `end` — an exact
gap-free, overlap-free alternating tiling of `[start, end]`. -/
theorem C1_segmenter_tiling (minT maxT work rest : ℤ)
    (h : minT < maxT) (hw : 0 < work) (hr : 0 < rest) :
    steps work rest minT maxT ≠ [] ∧
    (∀ s, (steps work rest minT maxT).head? = some s →
      s.start = minT ∧ s.type = StepType.work) ∧
    List.Chain' segAdj (steps work rest minT maxT) ∧
    (∀ s ∈ steps work rest minT maxT,
      minT ≤ s.start ∧ s.start < s.stop ∧ s.stop ≤ maxT) ∧
    (∀ s, (steps work rest minT maxT).getLast? = some s → s.stop = maxT) := by
  obtain ⟨⟨s, tl, hcons, hs1, hs2, _⟩, hlast, hchain, hmem, _⟩ :=
    stepsLoop_master work rest hw hr maxT ((maxT - minT).toNat) minT 1 le_rfl h
  unfold steps
  rw [hcons] at hlast hchain hmem ⊢
  refine ⟨List.cons_ne_nil s tl, ?_, hchain, hmem, hlast⟩
  intro a ha
  rw [List.head?_cons, Option.some.injEq] at ha
  rw [← ha]
  exact ⟨hs1, hs2⟩

/-- C1 witness: start 0, end 20, work 5, rest 3. -/
theorem C1_segmenter_tiling_witness :
    (0 : ℤ) < 20 ∧ (0 : ℤ) < 5 ∧ (0 : ℤ) < 3 ∧
    (steps 5 3 0 20 ≠ [] ∧
      (∀ s, (steps 5 3 0 20).head? = some s →
        s.start = 0 ∧ s.type = StepType.work) ∧
      List.Chain' segAdj (steps 5 3 0 20) ∧
      (∀ s ∈ steps 5 3 0 20, 0 ≤ s.start ∧ s.start < s.stop ∧ s.stop ≤ 20) ∧
      (∀ s, (steps 5 3 0 20).getLast? = some s → s.stop = 20)) :=
  ⟨by decide, by decide, by decide,
    C1_segmenter_tiling 0 20 5 3 (by decide) (by decide) (by decide)⟩

/-- C8: when the work duration covers the whole range (`work ≥ end − start`)
and rest > 0, the segmenter produces exactly one work segment spanning
`[start, end]`. -/
theorem C8_single_work_segment (minT maxT work rest : ℤ)
    (h : minT < maxT) (hwge : maxT - minT ≤ work) (hr : 0 < rest) :
    steps work rest minT maxT = [⟨1, StepType.work, minT, maxT⟩] := by
  unfold steps
  rw [stepsLoop, dif_pos ⟨by omega, hr⟩, dif_pos h]
  dsimp only
  have hwe : min (minT + work) maxT = maxT := by omega
  rw [hwe, dif_neg (lt_irrefl maxT), stepsLoop_stop work rest maxT maxT 2 le_rfl]

/-- C8 witness: start 0, end 20, work 30 ≥ 20, rest 3. -/
theorem C8_single_work_segment_witness :
    (0 : ℤ) < 20 ∧ (20 : ℤ) - 0 ≤ 30 ∧ (0 : ℤ) < 3 ∧
    steps 30 3 0 20 = [⟨1, StepType.work, 0, 20⟩] :=
  ⟨by decide, by decide, by decide,
    C8_single_work_segment 0 20 30 3 (by decide) (by decide) (by decide)⟩

/-- C9: for every start < end, work > 0 and rest > 0, every produced segment
has a strictly positive length and the `Step` indices are the consecutive
integers 1, 2, …, in order. -/
theorem C9_positive_segments_consecutive_indices (minT maxT work rest : ℤ)
    (h : minT < maxT) (hw : 0 < work) (hr : 0 < rest) :
    (∀ s ∈ steps work rest minT maxT, s.start < s.stop) ∧
    (steps work rest minT maxT).map Segment.step
      = List.range' 1 (steps work rest minT maxT).length := by
  obtain ⟨_, _, _, hmem, hsteps⟩ :=
    stepsLoop_master work rest hw hr maxT ((maxT - minT).toNat) minT 1 le_rfl h
  exact ⟨fun s hs => (hmem s hs).2.1, hsteps⟩

/-! ## C10 — windowed export -/

theorem df_filtered_rows_eq_spec {α : Type} :
    ∀ (rows : List α) (times : List ℚ) (lo hi : ℚ),
      df_filtered_rows rows times lo hi = windowedRowsSpec rows times lo hi := by
  intro rows
  induction rows with
  | nil => intro times lo hi; simp [df_filtered_rows, windowedRowsSpec]
  | cons r rs ih =>
    intro times lo hi
    cases times with
    | nil => simp [df_filtered_rows, windowedRowsSpec]
    | cons t ts =>
      have hcomp : ((fun i => match (r :: rs)[i]?, (t :: ts)[i]? with
            | some r', some t' => if inWindow lo hi t' then some r' else none
            | _, _ => none) ∘ Nat.succ)
          = (fun i => match rs[i]?, ts[i]? with
            | some r', some t' => if inWindow lo hi t' then some r' else none
            | _, _ => none) := by
        funext i
        simp [Function.comp, List.getElem?_cons_succ]
      have htail := ih ts lo hi
      unfold df_filtered_rows windowedRowsSpec at htail ⊢
      rw [List.zip_cons_cons, List.filter_cons, List.length_cons, List.length_cons,
        Nat.succ_min_succ, List.range_succ_eq_map, List.filterMap_cons, List.filterMap_map,
        hcomp]
      by_cases hw : inWindow lo hi t = true
      · simp only [hw, if_true, List.map_cons, List.getElem?_cons_zero]
        rw [htail]
      · simp only [hw, if_false, Bool.false_eq_true, List.getElem?_cons_zero]
        rw [htail]

/-- C10: the exported table consists of exactly the rows whose time-axis value
lies within the inclusive window `[lo, hi]`, in table order (rows outside the
window are absent), and the appended `<column>_filtered` values are a function
of the windowed subset only: any two tables with the same windowed rows export
the same filtered column, whatever the channel filter `g` computes. -/
theorem C10_export_rows_windowed (α : Type) (g : List (Option ℚ) → List ℚ)
    (extract : α → Option ℚ) (rows : List α) (times : List ℚ) (lo hi : ℚ) :
    (exportCSV g extract rows times lo hi).1 = windowedRowsSpec rows times lo hi ∧
    (∀ (rows' : List α) (times' : List ℚ),
      df_filtered_rows rows times lo hi = df_filtered_rows rows' times' lo hi →
      (exportCSV g extract rows times lo hi).2 = (exportCSV g extract rows' times' lo hi).2) := by
  constructor
  · exact df_filtered_rows_eq_spec rows times lo hi
  · intro rows' times' hsame
    unfold exportCSV
    dsimp only
    rw [hsame]

/-- C10 witness: two tables differing only outside the window `[0, 3]` export
the same filtered column. -/
theorem C10_export_rows_windowed_witness :
    df_filtered_rows [(10 : ℚ), 20] [1, 5] 0 3 = df_filtered_rows [(10 : ℚ), 99] [1, 7] 0 3 ∧
    (exportCSV (fun l => l.filterMap id) (fun x => some x) [(10 : ℚ), 20] [1, 5] 0 3).2
      = (exportCSV (fun l => l.filterMap id) (fun x => some x) [(10 : ℚ), 99] [1, 7] 0 3).2 :=
  ⟨by decide,
    (C10_export_rows_windowed ℚ (fun l => l.filterMap id) (fun x => some x)
      [10, 20] [1, 5] 0 3).2 [10, 99] [1, 7] (by decide)⟩

/-- C9 witness: start 0, end 20, work 5, rest 3. -/
theorem C9_positive_segments_consecutive_indices_witness :
    (0 : ℤ) < 20 ∧ (0 : ℤ) < 5 ∧ (0 : ℤ) < 3 ∧
    ((∀ s ∈ steps 5 3 0 20, s.start < s.stop) ∧
      (steps 5 3 0 20).map Segment.step = List.range' 1 (steps 5 3 0 20).length) :=
  ⟨by decide, by decide, by decide,
    C9_positive_segments_consecutive_indices 0 20 5 3 (by decide) (by decide) (by decide)⟩

/-! ## C6 — interpolation before filtering

The main statement relates the recursive gap filling `pandasInterpolate`
(translated from pandas' behaviour) to the cell-by-cell declarative versions
`specInterpolate` (the claim's wording: nearest edge value held on both
sides) and `specInterpolateFwd` (forward-only, the amended wording). -/

theorem gapSplit_none_eq (l : List (Option ℚ)) (g : ℕ) (h : gapSplit l = (g, none)) :
    l = List.replicate g none := by
  induction l generalizing g with
  | nil =>
    simp only [gapSplit, Prod.mk.injEq] at h
    rw [← h.1]
    rfl
  | cons x xs ih =>
    match x with
    | some a => simp [gapSplit] at h
    | none =>
      simp only [gapSplit, Prod.mk.injEq] at h
      obtain ⟨h1, h2⟩ := h
      cases g with
      | zero => omega
      | succ g' =>
        have : gapSplit xs = (g', none) := by
          have hg : (gapSplit xs).1 = g' := by omega
          rw [Prod.ext_iff]
          exact ⟨hg, h2⟩
        rw [List.replicate_succ]
        exact congrArg (List.cons none) (ih g' this)

theorem gapSplit_some_eq (l : List (Option ℚ)) (g : ℕ) (b : ℚ) (rest : List (Option ℚ))
    (h : gapSplit l = (g, some (b, rest))) :
    l = List.replicate g none ++ some b :: rest := by
  induction l generalizing g with
  | nil => simp [gapSplit] at h
  | cons x xs ih =>
    match x with
    | some a =>
      simp only [gapSplit, Prod.mk.injEq, Option.some.injEq, Prod.mk.injEq] at h
      obtain ⟨h1, h2, h3⟩ := h
      rw [← h1, ← h2, ← h3]
      rfl
    | none =>
      simp only [gapSplit, Prod.mk.injEq] at h
      obtain ⟨h1, h2⟩ := h
      cases g with
      | zero => omega
      | succ g' =>
        have : gapSplit xs = (g', some (b, rest)) := by
          have hg : (gapSplit xs).1 = g' := by omega
          rw [Prod.ext_iff]
          exact ⟨hg, h2⟩
        rw [List.replicate_succ, List.cons_append]
        exact congrArg (List.cons none) (ih g' this)

theorem interpFrom_of_gapSplit_none (a : ℚ) (l : List (Option ℚ)) (g : ℕ)
    (h : gapSplit l = (g, none)) : interpFrom a l = List.replicate g a := by
  rw [interpFrom]
  split
  next g' heq =>
    rw [h] at heq
    injection heq with h1 h2
    rw [h1]
  next g' b rest heq =>
    rw [h] at heq
    injection heq with h1 h2
    exact absurd h2 (by simp)

theorem interpFrom_of_gapSplit_some (a : ℚ) (l : List (Option ℚ)) (g : ℕ) (b : ℚ)
    (rest : List (Option ℚ)) (h : gapSplit l = (g, some (b, rest))) :
    interpFrom a l = gapFill a b g ++ b :: interpFrom b rest := by
  rw [interpFrom]
  split
  next g' heq =>
    rw [h] at heq
    injection heq with h1 h2
    exact absurd h2.symm (by simp)
  next g' b' rest' heq =>
    rw [h] at heq
    injection heq with h1 h2
    injection h2 with h2
    injection h2 with h3 h4
    rw [h1, h3, h4]

theorem interpFrom_nil (a : ℚ) : interpFrom a [] = [] :=
  interpFrom_of_gapSplit_none a [] 0 rfl

theorem gapSplit_some_length (l : List (Option ℚ)) (g : ℕ) (b : ℚ)
    (rest : List (Option ℚ)) (h : gapSplit l = (g, some (b, rest))) :
    g + 1 + rest.length = l.length := by
  have := gapSplit_length l b rest (by rw [h])
  rw [h] at this
  exact this

theorem gapFill_length (a b : ℚ) (g : ℕ) : (gapFill a b g).length = g := by
  unfold gapFill
  rw [List.length_map, List.length_range]

theorem gapFill_getElem? (a b : ℚ) (g i : ℕ) :
    (gapFill a b g)[i]? =
      if i < g then some (a + (b - a) * ((i : ℚ) + 1) / ((g : ℚ) + 1)) else none := by
  unfold gapFill
  rw [List.getElem?_map]
  by_cases h : i < g
  · rw [List.getElem?_range h, if_pos h]
    rfl
  · rw [List.getElem?_eq_none (by simpa using not_lt.mp h), if_neg h]
    rfl

theorem interpFrom_length (a : ℚ) (l : List (Option ℚ)) :
    (interpFrom a l).length = l.length := by
  suffices H : ∀ (n : ℕ) (l : List (Option ℚ)) (a : ℚ), l.length ≤ n →
      (interpFrom a l).length = l.length from H l.length l a le_rfl
  intro n
  induction n with
  | zero =>
    intro l a hl
    have hnil : l = [] := List.eq_nil_of_length_eq_zero (by omega)
    subst hnil
    rw [interpFrom_nil]
    rfl
  | succ n ih =>
    intro l a hl
    rcases hsplit : gapSplit l with ⟨g, o⟩
    cases o with
    | none =>
      rw [interpFrom_of_gapSplit_none a l g hsplit, gapSplit_none_eq l g hsplit]
      simp
    | some p =>
      obtain ⟨b, rest⟩ := p
      have hlen : g + 1 + rest.length = l.length := gapSplit_some_length l g b rest hsplit
      rw [interpFrom_of_gapSplit_some a l g b rest hsplit]
      simp only [List.length_append, List.length_cons, gapFill_length,
        ih rest b (by omega)]
      omega

/-! ### firstKnown lemmas -/

theorem firstKnown_cons_none (t : List (Option ℚ)) :
    firstKnown (none :: t) = (firstKnown t).map (fun p => (p.1 + 1, p.2)) := rfl

theorem firstKnown_cons_some (v : ℚ) (t : List (Option ℚ)) :
    firstKnown (some v :: t) = some (0, v) := rfl

theorem firstKnown_replicate_none (g : ℕ) :
    firstKnown (List.replicate g none) = none := by
  induction g with
  | zero => rfl
  | succ g ih => rw [List.replicate_succ, firstKnown_cons_none, ih]; rfl

theorem firstKnown_append_of_some (l1 l2 : List (Option ℚ)) (p : ℕ × ℚ)
    (h : firstKnown l1 = some p) : firstKnown (l1 ++ l2) = some p := by
  induction l1 generalizing p with
  | nil => simp [firstKnown] at h
  | cons x xs ih =>
    match x with
    | some v =>
      rw [firstKnown_cons_some] at h
      rw [List.cons_append, firstKnown_cons_some]
      exact h
    | none =>
      rw [firstKnown_cons_none] at h
      rw [List.cons_append, firstKnown_cons_none]
      obtain ⟨q, hq, hpq⟩ := Option.map_eq_some'.mp h
      rw [ih q hq, Option.map_some', hpq]

theorem firstKnown_append_none (l1 l2 : List (Option ℚ)) (h : firstKnown l1 = none) :
    firstKnown (l1 ++ l2) = (firstKnown l2).map (fun p => (p.1 + l1.length, p.2)) := by
  induction l1 with
  | nil =>
    simp only [List.nil_append, List.length_nil]
    cases firstKnown l2 <;> simp
  | cons x xs ih =>
    match x with
    | some v =>
      rw [firstKnown_cons_some] at h
      exact absurd h (by simp)
    | none =>
      rw [firstKnown_cons_none] at h
      have hxs : firstKnown xs = none := Option.map_eq_none'.mp h
      rw [List.cons_append, firstKnown_cons_none, ih hxs, Option.map_map]
      cases firstKnown l2 with
      | none => rfl
      | some q =>
        show some (q.1 + xs.length + 1, q.2) = some (q.1 + (xs.length + 1), q.2)
        rw [Nat.add_assoc]

/-! ### Shift lemmas: a column `replicate g none ++ some b :: rest` seen from
position `g + 1 + j` looks exactly like `rest` seen from `j`, with previous
known value `b`. -/

theorem take_shift (g : ℕ) (b : ℚ) (rest : List (Option ℚ)) (j : ℕ) :
    (List.replicate g (none : Option ℚ) ++ some b :: rest).take (g + 1 + j)
      = List.replicate g none ++ some b :: rest.take j := by
  rw [List.take_append_eq_append_take, List.take_replicate, List.length_replicate]
  have h1 : min (g + 1 + j) g = g := by omega
  have h2 : g + 1 + j - g = j + 1 := by omega
  rw [h1, h2]
  rfl

theorem getElem?_shift (g : ℕ) (b : ℚ) (rest : List (Option ℚ)) (j : ℕ) :
    (List.replicate g (none : Option ℚ) ++ some b :: rest)[g + 1 + j]? = rest[j]? := by
  rw [List.getElem?_append, List.length_replicate, if_neg (by omega)]
  have h2 : g + 1 + j - g = j + 1 := by omega
  rw [h2, List.getElem?_cons_succ]

theorem drop_shift (g : ℕ) (b : ℚ) (rest : List (Option ℚ)) (j : ℕ) :
    (List.replicate g (none : Option ℚ) ++ some b :: rest).drop (g + 1 + j + 1)
      = rest.drop (j + 1) := by
  rw [List.drop_append_eq_append_drop, List.drop_replicate, List.length_replicate]
  have h1 : g - (g + 1 + j + 1) = 0 := by omega
  have h2 : g + 1 + j + 1 - g = j + 2 := by omega
  rw [h1, h2]
  rfl

theorem take_reverse_firstKnown (g : ℕ) (b : ℚ) (rest : List (Option ℚ)) (j : ℕ) :
    firstKnown (((List.replicate g (none : Option ℚ) ++ some b :: rest).take (g + 1 + j)).reverse)
      = match firstKnown ((rest.take j).reverse) with
        | some p => some p
        | none => some ((rest.take j).length, b) := by
  rw [take_shift, List.reverse_append, List.reverse_cons, List.reverse_replicate,
    List.append_assoc]
  cases hfk : firstKnown ((rest.take j).reverse) with
  | some p => rw [firstKnown_append_of_some _ _ p hfk]
  | none =>
    rw [firstKnown_append_none _ _ hfk, List.singleton_append, firstKnown_cons_some,
      Option.map_some', List.length_reverse]
    show some (0 + (rest.take j).length, b) = some ((rest.take j).length, b)
    rw [Nat.zero_add]

/-! ### Cell-by-cell characterizations of the declarative interpolation -/

theorem specAfterAt_replicate (a : ℚ) (g i : ℕ) :
    specAfterAt a (List.replicate g none) i = if i < g then some a else none := by
  unfold specAfterAt
  rw [List.getElem?_replicate]
  by_cases h : i < g
  · rw [if_pos h, if_pos h]
    have htake : (List.replicate g (none : Option ℚ)).take i = List.replicate i none := by
      rw [List.take_replicate]
      congr 1
      omega
    rw [htake, List.reverse_replicate, firstKnown_replicate_none, List.drop_replicate,
      firstKnown_replicate_none]
    rfl
  · rw [if_neg h, if_neg h]

theorem specAfterAt_decomp (a b : ℚ) (g : ℕ) (rest : List (Option ℚ)) (i : ℕ) :
    specAfterAt a (List.replicate g none ++ some b :: rest) i =
      if i < g then some (a + (b - a) * ((i : ℚ) + 1) / ((g : ℚ) + 1))
      else if i = g then some b
      else specAfterAt b rest (i - g - 1) := by
  rcases Nat.lt_trichotomy i g with hlt | heq | hgt
  · rw [if_pos hlt]
    unfold specAfterAt
    have hcell : (List.replicate g (none : Option ℚ) ++ some b :: rest)[i]? = some none := by
      rw [List.getElem?_append, List.length_replicate, if_pos hlt,
        List.getElem?_replicate, if_pos hlt]
    rw [hcell]
    have htake : (List.replicate g (none : Option ℚ) ++ some b :: rest).take i
        = List.replicate i none := by
      rw [List.take_append_eq_append_take, List.take_replicate, List.length_replicate]
      have h1 : min i g = i := by omega
      have h2 : i - g = 0 := by omega
      rw [h1, h2]
      simp
    rw [htake, List.reverse_replicate, firstKnown_replicate_none]
    have hdrop : (List.replicate g (none : Option ℚ) ++ some b :: rest).drop (i + 1)
        = List.replicate (g - (i + 1)) none ++ some b :: rest := by
      rw [List.drop_append_eq_append_drop, List.drop_replicate, List.length_replicate]
      have h2 : i + 1 - g = 0 := by omega
      rw [h2]
      rfl
    rw [hdrop, firstKnown_append_none _ _ (firstKnown_replicate_none _),
      firstKnown_cons_some, Option.map_some', List.length_replicate]
    show some (a + (b - a) * ((i : ℚ) + 1) / ((i : ℚ) + ((0 + (g - (i + 1)) : ℕ) : ℚ) + 2)) = _
    have hD : (i : ℚ) + ((0 + (g - (i + 1)) : ℕ) : ℚ) + 2 = (g : ℚ) + 1 := by
      have h0 : (0 + (g - (i + 1))) = g - (i + 1) := by omega
      rw [h0]
      have h2 : g - (i + 1) + (i + 1) = g := by omega
      have h3 := congrArg (fun n : ℕ => (n : ℚ)) h2
      push_cast at h3
      linarith
    rw [hD]
  · subst heq
    rw [if_neg (lt_irrefl i), if_pos rfl]
    unfold specAfterAt
    have hcell : (List.replicate i (none : Option ℚ) ++ some b :: rest)[i]? = some (some b) := by
      rw [List.getElem?_append, List.length_replicate, if_neg (by omega)]
      have h2 : i - i = 0 := by omega
      rw [h2, List.getElem?_cons_zero]
    rw [hcell]
  · rw [if_neg (by omega), if_neg (by omega)]
    obtain ⟨j, rfl⟩ : ∃ j, i = g + 1 + j := ⟨i - g - 1, by omega⟩
    have hj : g + 1 + j - g - 1 = j := by omega
    rw [hj]
    unfold specAfterAt
    rw [getElem?_shift, take_reverse_firstKnown, drop_shift]
    cases hc : rest[j]? with
    | none => rfl
    | some cell =>
      cases cell with
      | some v => rfl
      | none =>
        cases hfk : firstKnown ((rest.take j).reverse) with
        | some p => rfl
        | none =>
          have hjlen : j < rest.length := (List.getElem?_eq_some.mp hc).1
          have hj2 : (rest.take j).length = j := by
            rw [List.length_take]
            omega
          rw [hj2]

theorem specFwdAt_replicate (g i : ℕ) :
    specInterpolateFwdAt (List.replicate g none) i = none := by
  unfold specInterpolateFwdAt
  rw [List.getElem?_replicate]
  by_cases h : i < g
  · rw [if_pos h]
    have htake : (List.replicate g (none : Option ℚ)).take i = List.replicate i none := by
      rw [List.take_replicate]
      congr 1
      omega
    rw [htake, List.reverse_replicate, firstKnown_replicate_none]
  · rw [if_neg h]

theorem specFwdAt_decomp (b : ℚ) (g : ℕ) (rest : List (Option ℚ)) (i : ℕ) :
    specInterpolateFwdAt (List.replicate g none ++ some b :: rest) i =
      if i < g then none
      else if i = g then some b
      else specAfterAt b rest (i - g - 1) := by
  rcases Nat.lt_trichotomy i g with hlt | heq | hgt
  · rw [if_pos hlt]
    unfold specInterpolateFwdAt
    have hcell : (List.replicate g (none : Option ℚ) ++ some b :: rest)[i]? = some none := by
      rw [List.getElem?_append, List.length_replicate, if_pos hlt,
        List.getElem?_replicate, if_pos hlt]
    rw [hcell]
    have htake : (List.replicate g (none : Option ℚ) ++ some b :: rest).take i
        = List.replicate i none := by
      rw [List.take_append_eq_append_take, List.take_replicate, List.length_replicate]
      have h1 : min i g = i := by omega
      have h2 : i - g = 0 := by omega
      rw [h1, h2]
      simp
    rw [htake, List.reverse_replicate, firstKnown_replicate_none]
  · subst heq
    rw [if_neg (lt_irrefl i), if_pos rfl]
    unfold specInterpolateFwdAt
    have hcell : (List.replicate i (none : Option ℚ) ++ some b :: rest)[i]? = some (some b) := by
      rw [List.getElem?_append, List.length_replicate, if_neg (by omega)]
      have h2 : i - i = 0 := by omega
      rw [h2, List.getElem?_cons_zero]
    rw [hcell]
  · rw [if_neg (by omega), if_neg (by omega)]
    obtain ⟨j, rfl⟩ : ∃ j, i = g + 1 + j := ⟨i - g - 1, by omega⟩
    have hj : g + 1 + j - g - 1 = j := by omega
    rw [hj]
    unfold specInterpolateFwdAt specAfterAt
    rw [getElem?_shift, take_reverse_firstKnown, drop_shift]
    cases hc : rest[j]? with
    | none => rfl
    | some cell =>
      cases cell with
      | some v => rfl
      | none =>
        cases hfk : firstKnown ((rest.take j).reverse) with
        | some p => rfl
        | none =>
          have hjlen : j < rest.length := (List.getElem?_eq_some.mp hc).1
          have hj2 : (rest.take j).length = j := by
            rw [List.length_take]
            omega
          rw [hj2]

/-! ### The recursive gap filling agrees with the declarative forward
interpolation, cell by cell -/

theorem interpFrom_getElem?_aux :
    ∀ (n : ℕ) (l : List (Option ℚ)), l.length ≤ n → ∀ (a : ℚ) (i : ℕ),
      (interpFrom a l)[i]? = specAfterAt a l i := by
  intro n
  induction n with
  | zero =>
    intro l hl a i
    have hnil : l = [] := List.eq_nil_of_length_eq_zero (by omega)
    subst hnil
    rw [interpFrom_nil]
    unfold specAfterAt
    rw [List.getElem?_nil, List.getElem?_nil]
  | succ n ih =>
    intro l hl a i
    rcases hsplit : gapSplit l with ⟨g, o⟩
    cases o with
    | none =>
      rw [interpFrom_of_gapSplit_none a l g hsplit, gapSplit_none_eq l g hsplit,
        specAfterAt_replicate, List.getElem?_replicate]
    | some p =>
      obtain ⟨b, rest⟩ := p
      have hlen : g + 1 + rest.length = l.length := gapSplit_some_length l g b rest hsplit
      rw [interpFrom_of_gapSplit_some a l g b rest hsplit,
        gapSplit_some_eq l g b rest hsplit, specAfterAt_decomp]
      rcases Nat.lt_trichotomy i g with hlt | heq | hgt
      · rw [if_pos hlt, List.getElem?_append, gapFill_length, if_pos hlt,
          gapFill_getElem?, if_pos hlt]
      · subst heq
        rw [if_neg (lt_irrefl i), if_pos rfl, List.getElem?_append, gapFill_length,
          if_neg (lt_irrefl i)]
        have h2 : i - i = 0 := by omega
        rw [h2, List.getElem?_cons_zero]
      · rw [if_neg (by omega), if_neg (by omega)]
        obtain ⟨j, rfl⟩ : ∃ j, i = g + 1 + j := ⟨i - g - 1, by omega⟩
        have hj : g + 1 + j - g - 1 = j := by omega
        rw [hj, List.getElem?_append, gapFill_length, if_neg (by omega)]
        have h2 : g + 1 + j - g = j + 1 := by omega
        rw [h2, List.getElem?_cons_succ]
        exact ih rest (by omega) b j

theorem interpFrom_getElem? (a : ℚ) (l : List (Option ℚ)) (i : ℕ) :
    (interpFrom a l)[i]? = specAfterAt a l i :=
  interpFrom_getElem?_aux l.length l le_rfl a i

theorem interpValue_eq_some (a : ℚ) (d1 : ℕ) (nxt : Option (ℕ × ℚ)) :
    ∃ q, interpValue a d1 nxt = some q := by
  cases nxt with
  | none => exact ⟨a, rfl⟩
  | some p =>
    obtain ⟨d2, b⟩ := p
    exact ⟨_, rfl⟩

theorem specAfterAt_isSome (a : ℚ) (l : List (Option ℚ)) (i : ℕ) (h : i < l.length) :
    ∃ q, specAfterAt a l i = some q := by
  unfold specAfterAt
  cases hc : l[i]? with
  | none =>
    exfalso
    have := List.getElem?_eq_getElem h
    rw [hc] at this
    exact Option.noConfusion this
  | some cell =>
    cases cell with
    | some v => exact ⟨v, rfl⟩
    | none =>
      cases hfk : firstKnown ((l.take i).reverse) with
      | some p =>
        obtain ⟨d1, x⟩ := p
        exact interpValue_eq_some x d1 _
      | none => exact interpValue_eq_some a i _

theorem specInterpolateFwd_getElem? (l : List (Option ℚ)) (i : ℕ) :
    (specInterpolateFwd l)[i]? =
      if i < l.length then some (specInterpolateFwdAt l i) else none := by
  unfold specInterpolateFwd
  rw [List.getElem?_map]
  by_cases h : i < l.length
  · rw [List.getElem?_range h, if_pos h]
    rfl
  · rw [List.getElem?_eq_none (by rw [List.length_range]; omega), if_neg h]
    rfl

theorem specFwd_replicate (g : ℕ) :
    specInterpolateFwd (List.replicate g none) = List.replicate g none := by
  apply List.ext_getElem?
  intro i
  rw [specInterpolateFwd_getElem?, List.getElem?_replicate, List.length_replicate]
  by_cases h : i < g
  · rw [if_pos h, if_pos h, specFwdAt_replicate]
  · rw [if_neg h, if_neg h]

/-- Central C6 lemma: the gap filling the code performs (pandas
`interpolate()` with defaults) equals the forward-only declarative
interpolation — interior gaps linear, trailing gaps held at the last known
value, leading gaps left missing. -/
theorem pandasInterpolate_eq_specFwd (l : List (Option ℚ)) :
    pandasInterpolate l = specInterpolateFwd l := by
  unfold pandasInterpolate
  rcases hsplit : gapSplit l with ⟨g, o⟩
  cases o with
  | none =>
    show l = specInterpolateFwd l
    rw [gapSplit_none_eq l g hsplit]
    exact (specFwd_replicate g).symm
  | some p =>
    obtain ⟨b, rest⟩ := p
    show List.replicate g none ++ some b :: (interpFrom b rest).map some
      = specInterpolateFwd l
    rw [gapSplit_some_eq l g b rest hsplit]
    apply List.ext_getElem?
    intro i
    rw [specInterpolateFwd_getElem?, specFwdAt_decomp]
    have hlen2 : (List.replicate g (none : Option ℚ) ++ some b :: rest).length
        = g + 1 + rest.length := by
      simp only [List.length_append, List.length_replicate, List.length_cons]
      omega
    rw [hlen2]
    rcases Nat.lt_trichotomy i g with hlt | heq | hgt
    · rw [if_pos (by omega), if_pos hlt, List.getElem?_append, List.length_replicate,
        if_pos hlt, List.getElem?_replicate, if_pos hlt]
    · subst heq
      rw [if_pos (by omega), if_neg (lt_irrefl i), if_pos rfl, List.getElem?_append,
        List.length_replicate, if_neg (by omega)]
      have h2 : i - i = 0 := by omega
      rw [h2, List.getElem?_cons_zero]
    · obtain ⟨j, rfl⟩ : ∃ j, i = g + 1 + j := ⟨i - g - 1, by omega⟩
      have hj : g + 1 + j - g - 1 = j := by omega
      rw [hj, List.getElem?_append, List.length_replicate, if_neg (by omega)]
      have h2 : g + 1 + j - g = j + 1 := by omega
      rw [h2, List.getElem?_cons_succ, List.getElem?_map, interpFrom_getElem?]
      rw [if_neg (show ¬ (g + 1 + j < g) by omega),
        if_neg (show ¬ (g + 1 + j = g) by omega)]
      by_cases hjl : j < rest.length
      · rw [if_pos (show g + 1 + j < g + 1 + rest.length by omega)]
        obtain ⟨q, hq⟩ := specAfterAt_isSome b rest j hjl
        rw [hq]
        rfl
      · rw [if_neg (show ¬ (g + 1 + j < g + 1 + rest.length) by omega)]
        have hnone : specAfterAt b rest j = none := by
          unfold specAfterAt
          rw [List.getElem?_eq_none (by omega)]
        rw [hnone]
        rfl

/-- C6 counterexample: the column `[missing, 1]` has a leading gap; pandas
`interpolate()` leaves it missing, whereas the claimed edge-hold interpolation
would fill it with 1.  The missing leading value is then passed to the
filter. -/
theorem C6_counterexample :
    pandasInterpolate [none, some 1] = [none, some 1] ∧
    specInterpolate [none, some 1] = [some 1, some 1] ∧
    ¬ pandasInterpolate [none, some 1] = specInterpolate [none, some 1] := by
  have h1 : pandasInterpolate [none, some 1] = [none, some 1] := by
    have hs : gapSplit [none, some 1] = (1, some (1, [])) := rfl
    unfold pandasInterpolate
    rw [hs]
    show List.replicate 1 none ++ some 1 :: (interpFrom 1 []).map some = [none, some 1]
    rw [interpFrom_nil]
    rfl
  have h2 : specInterpolate [none, some 1] = [some 1, some 1] := by decide
  refine ⟨h1, h2, ?_⟩
  rw [h1, h2]
  decide

/-- C6 amended: for every input channel, the filter stage applies the channel
filter to exactly the forward-interpolated sequence — missing interior values
linearly interpolated, trailing gaps held at the last known value, and leading
gaps left missing (passed through to the filter as missing), with no edge-hold
of the first known value across leading gaps. -/
theorem C6_interpolate_then_filter (g : List (Option ℚ) → List ℚ)
    (col : List (Option ℚ)) :
    filteredChannel g col = g (specInterpolateFwd col) := by
  unfold filteredChannel
  rw [pandasInterpolate_eq_specFwd]

end NirsApp
